import Mathlib

/-!
Verification development for the arbor miniapp's distributed spike-exchange
and bulk-synchronous scheduling subsystem.

The definitions below are shallow embeddings of the C++ source:
`src/miniapp/miniapp.cpp` (the model driver, partitioning and network
construction) and `src/arbor/cable_cell.cpp` (cell segment construction).
Simulated-time arithmetic on C++ doubles is embedded as exact rational
arithmetic over ℚ.  Components of the repository whose sources are not in
the excerpt (the communicator and `mc::algorithms::make_index`) are
modelled from the specification; those definitions say so in their doc
comments.
-/

/-! ## Simulation driver (`model::run`, miniapp.cpp lines 40-66)

The C++ loop is

    auto t = 0.;
    auto delta = std::min(double(communicator.min_delay()), tfinal);
    while (t<tfinal) {
        ... cell_groups[i].advance(std::min(t+delta, tfinal), dt); ...
        communicator.exchange();
        t += delta;
    }

`delta` is computed once before the loop.  `runAux` mirrors the loop with
explicit fuel; it returns the list of advance end times (the value
`min (t+delta) tfinal` passed to `advance` at each iteration), the final
value of the loop variable `t`, and a flag that is `true` exactly when the
loop exited through its guard `t < tfinal` within the given fuel. -/

/-- `std::min` on exact rationals: returns the first argument on ties. -/
def rmin (a b : ℚ) : ℚ := if a ≤ b then a else b

def runAux (tfinal delta : ℚ) : ℕ → ℚ → List ℚ × ℚ × Bool
  | 0, t => ([], t, if t < tfinal then false else true)
  | Nat.succ n, t =>
    if t < tfinal then
      let r := runAux tfinal delta n (t + delta)
      (rmin (t + delta) tfinal :: r.1, r.2.1, r.2.2)
    else ([], t, true)

/-- Embedding of `model::run`: `t` starts at `0`, and
`delta = min(min_delay, tfinal)` is computed once, before the loop. -/
def model_run (tfinal min_delay : ℚ) (fuel : ℕ) : List ℚ × ℚ × Bool :=
  runAux tfinal (rmin min_delay tfinal) fuel 0

/-! ## Epoch loop characterisation -/

/-! ## Cell-group scheduler ordering (`model::run` loop body, miniapp.cpp 44-62)

One loop iteration performs, for each local group `i`:
`enqueue_events(queue(i))`, `advance(min(t+delta,tfinal), dt)`,
`add_spikes(spikes())`, `clear_spikes()`, and after the parallel-for join a
single `exchange()`.  The trace below records the operations of one
iteration; the parallel-for is a fork-join construct, so per-group the four
operations are sequential and `exchange` follows the join. -/

inductive Op where
  | enqueue_events : ℕ → Op
  | advance : ℕ → Op
  | add_spikes : ℕ → Op
  | clear_spikes : ℕ → Op
  | exchange : Op
deriving DecidableEq

/-- The four operations the loop body applies to group `i`, in source
order. -/
def groupOps (i : ℕ) : List Op :=
  [Op.enqueue_events i, Op.advance i, Op.add_spikes i, Op.clear_spikes i]

/-- Trace of one iteration of the stepping loop with `n` local groups. -/
def epochTrace (n : ℕ) : List Op :=
  ((List.range n).flatMap groupOps) ++ [Op.exchange]

/-- Does this operation touch group `g`? -/
def Op.isFor (g : ℕ) : Op → Bool
  | Op.enqueue_events i => i == g
  | Op.advance i => i == g
  | Op.add_spikes i => i == g
  | Op.clear_spikes i => i == g
  | Op.exchange => false

def Op.isExchange : Op → Bool
  | Op.exchange => true
  | _ => false

/-! ## Index/Domain Mapper (`make_index`, called in miniapp.cpp 79-80) -/

/-- Modelled from the spec: `mc::algorithms::make_index` (the
`algorithms` header is not part of the excerpt; only its call sites in
`model::init_communicator` are).  Per the contract, given a sequence of
per-unit counts it produces the sequence of prefix-sum offsets of length
`count+1`; this helper carries the running sum `b`. -/
def make_index_from (b : ℕ) : List ℕ → List ℕ
  | [] => [b]
  | c :: cs => b :: make_index_from (b + c) cs

/-- Modelled from the spec: `make_index counts` is the offset table whose
entry `k` is the sum of all counts before unit `k`. -/
def make_index (counts : List ℕ) : List ℕ := make_index_from 0 counts

/-! ## Connection Table minimum delay (communicator, spec section 4.2)

The communicator sources (`communication/communicator.hpp`) are not part of
the excerpt; only the call `communicator.min_delay()` in `model::run`
(miniapp.cpp line 42) is.  These definitions are modelled from the spec. -/

/-- Combine two optional delays, keeping the smaller; `none` means the
domain (or reduction so far) has no connections. -/
def omin : Option ℚ → Option ℚ → Option ℚ
  | none, b => b
  | some a, none => some a
  | some a, some b => some (min a b)

/-- Modelled from the spec: the local minimum delay of one domain's
connection delays (`none` when the domain has no connections). -/
def local_min_delay (delays : List ℚ) : Option ℚ :=
  delays.foldr (fun d acc => omin (some d) acc) none

/-- Modelled from the spec: `min_delay()` after `construct()` — a collective
reduction of every domain's local minimum; each domain receives this single
network-wide value. -/
def global_min_delay (domains : List (List ℚ)) : Option ℚ :=
  (domains.map local_min_delay).foldr omin none

/-! ## Addressing round trip (communicator, spec section 6)

`group_gid_from_group_lid` and `group_lid` are communicator members whose
sources are not in the excerpt; miniapp.cpp lines 325-327 and 362-366 only
call them.  Modelled from the spec: a domain owns the contiguous gid range
starting at `group_gid_first(domain)`, so the gid of local index `lid` is
the base plus `lid`, and `group_lid` subtracts the base. -/

/-- Modelled from the spec: per-domain addressing state, the first global
id owned by this domain. -/
structure DomainAddressing where
  first_gid : ℕ

/-- Modelled from the spec: `group_gid_from_group_lid(lid)`. -/
def group_gid_from_group_lid (dm : DomainAddressing) (lid : ℕ) : ℕ :=
  dm.first_gid + lid

/-- Modelled from the spec: `group_lid(gid)`. -/
def group_lid (dm : DomainAddressing) (gid : ℕ) : ℕ :=
  gid - dm.first_gid

/-! ## Connection table construction state (communicator, spec sections 4.2, 7)

`add_connection` and `construct` are communicator members whose sources are
not in the excerpt; miniapp.cpp lines 335 and 345 only call them.  Modelled
from the spec: `add_connection` appends a candidate connection before
`construct()` is called; calling it after construction is a usage error;
`construct()` itself validates `delay ≥ 0` and fails when called twice.
(The source-sorting that `construct()` also performs is not modelled: no
claim here depends on connection order.) -/

structure Connection where
  source : ℕ
  target : ℕ
  weight : ℚ
  delay : ℚ
deriving DecidableEq

inductive CommError where
  | usage_error
  | connectivity_error
deriving DecidableEq

structure Communicator where
  connections : List Connection
  constructed : Bool
deriving DecidableEq

/-- Modelled from the spec: `add_connection(con)` appends a candidate
connection; after `construct()` it is a usage error. -/
def add_connection (c : Communicator) (con : Connection) : Except CommError Communicator :=
  if c.constructed then Except.error CommError.usage_error
  else Except.ok { c with connections := c.connections ++ [con] }

/-- Modelled from the spec: `construct()` validates every delay is
non-negative and marks the communicator constructed; calling it twice is a
usage error. -/
def construct (c : Communicator) : Except CommError Communicator :=
  if c.constructed then Except.error CommError.usage_error
  else if c.connections.all (fun con => decide ((0 : ℚ) ≤ con.delay)) then
    Except.ok { c with constructed := true }
  else Except.error CommError.connectivity_error

/-! ## `cable_cell::add_cable` (src/arbor/cable_cell.cpp lines 41-54)

The constructor inserts a placeholder segment for the soma with parent `0`;
`add_cable` rejects a non-cable segment, rejects `parent > num_segments()`,
and otherwise appends the segment and its parent index. -/

inductive SegmentKind where
  | placeholder
  | soma
  | cable
deriving DecidableEq

structure cable_cell where
  segments_ : List SegmentKind
  parents_ : List ℕ
deriving DecidableEq

/-- The `cable_cell` default constructor (cable_cell.cpp lines 13-17). -/
def cable_cell.init : cable_cell :=
  { segments_ := [SegmentKind.placeholder], parents_ := [0] }

def cable_cell.num_segments (c : cable_cell) : ℕ := c.segments_.length

inductive cable_cell_error where
  | not_a_cable
  | parent_out_of_range
deriving DecidableEq

/-- `cable_cell::add_cable` (cable_cell.cpp lines 41-54). -/
def cable_cell.add_cable (c : cable_cell) (parent : ℕ) (seg : SegmentKind) :
    Except cable_cell_error cable_cell :=
  if seg ≠ SegmentKind.cable then Except.error cable_cell_error.not_a_cable
  else if parent > c.num_segments then Except.error cable_cell_error.parent_out_of_range
  else Except.ok { segments_ := c.segments_ ++ [seg], parents_ := c.parents_ ++ [parent] }

/-! ## Domain partition of cells (`all_to_all_model`, miniapp.cpp 283-292)

    id_type ncell_local  = ncell_global / num_domains;
    int remainder = ncell_global - (ncell_local*num_domains);
    if (domain_id<remainder) { ncell_local++; }
-/

/-- Local cell count of domain `i` when `g` cells are split over `D`
domains, exactly as computed in `all_to_all_model`. -/
def ncell_local (g D i : ℕ) : ℕ :=
  if i < g - g / D * D then g / D + 1 else g / D

/-! ## Connection-building loop (`all_to_all_model`, miniapp.cpp 313-343)

    auto i = 0u;
    auto cells_added = 0u;
    while (cells_added < synapses_per_cell) {
        auto source = is_all_to_all ?  i : source_distribution(gen);
        if (gid!=source) {
            m.communicator.add_connection({
                source, target++, weight,
                parameters::synapses::delay + weight_distribution(gen)
            });
            cells_added++;
        }
        ++i;
    }

The candidate source draws and the exponential delay draws are abstracted
as streams `src` and `dly` indexed by the loop counter; an exponential
draw is non-negative.  `parameters::synapses::delay` is `20.0`. -/

/-- `parameters::synapses::delay` (miniapp.cpp line 183). -/
def synapses_delay : ℚ := 20

/-- `parameters::synapses::weight_per_cell` (miniapp.cpp line 186). -/
def synapses_weight_per_cell : ℚ := 3 / 10

/-- The per-cell connection-building loop, with explicit fuel bounding the
number of candidate draws: state is the loop counter `i`, the running
target id `tgt` and `added = cells_added`. -/
def buildConns (gid spc : ℕ) (w : ℚ) (src : ℕ → ℕ) (dly : ℕ → ℚ) :
    ℕ → ℕ → ℕ → ℕ → List Connection
  | 0, _, _, _ => []
  | Nat.succ fuel, i, tgt, added =>
    if added < spc then
      if gid ≠ src i then
        { source := src i, target := tgt, weight := w,
          delay := synapses_delay + dly i } ::
          buildConns gid spc w src dly fuel (i + 1) (tgt + 1) (added + 1)
      else buildConns gid spc w src dly fuel (i + 1) tgt added
    else []

/-- Number of candidate draws in the window `[i, i + fuel)` that differ
from `gid` (the draws the loop accepts). -/
def countValid (gid : ℕ) (src : ℕ → ℕ) : ℕ → ℕ → ℕ
  | _, 0 => 0
  | i, Nat.succ fuel => (if gid ≠ src i then 1 else 0) + countValid gid src (i + 1) fuel

/-! ## Theorems -/

theorem rmin_eq_min (a b : ℚ) : rmin a b = min a b := by
  unfold rmin
  by_cases h : a ≤ b
  · simp [h, min_eq_left h]
  · have h' : b ≤ a := le_of_not_le h
    simp [h, min_eq_right h']

/-- When the fuel is at least `⌈(tfinal - t)/delta⌉`, the loop exits through
its guard, and the number of iterations performed is exactly
`⌈(tfinal - t)/delta⌉` (as a natural number). -/
theorem runAux_complete (tfinal delta : ℚ) (hd : 0 < delta) :
    ∀ (fuel : ℕ) (t : ℚ), (⌈(tfinal - t) / delta⌉).toNat ≤ fuel →
      (runAux tfinal delta fuel t).2.2 = true ∧
      (runAux tfinal delta fuel t).1.length = (⌈(tfinal - t) / delta⌉).toNat := by
  intro fuel
  induction fuel with
  | zero =>
    intro t h
    have hle : ⌈(tfinal - t) / delta⌉ ≤ 0 := by omega
    have hx : (tfinal - t) / delta ≤ ((0 : ℤ) : ℚ) := Int.ceil_le.mp hle
    have hx0 : (tfinal - t) / delta ≤ 0 := by exact_mod_cast hx
    have htf : ¬ t < tfinal := by
      intro hlt
      have : 0 < (tfinal - t) / delta := div_pos (by linarith) hd
      linarith
    constructor
    · simp [runAux, htf]
    · simp [runAux, htf]
      omega
  | succ n ih =>
    intro t h
    by_cases hlt : t < tfinal
    · have hpos : 0 < (tfinal - t) / delta := div_pos (by linarith) hd
      have hc1 : 0 < ⌈(tfinal - t) / delta⌉ := Int.ceil_pos.mpr hpos
      have hstep : (tfinal - (t + delta)) / delta = (tfinal - t) / delta - 1 := by
        rw [show tfinal - (t + delta) = (tfinal - t) - delta by ring, sub_div,
          div_self (ne_of_gt hd)]
      have hceil : ⌈(tfinal - (t + delta)) / delta⌉ = ⌈(tfinal - t) / delta⌉ - 1 := by
        rw [hstep, Int.ceil_sub_one]
      have hrec : (⌈(tfinal - (t + delta)) / delta⌉).toNat ≤ n := by omega
      obtain ⟨hdone, hlen⟩ := ih (t + delta) hrec
      constructor
      · simpa [runAux, hlt] using hdone
      · have : (runAux tfinal delta (n + 1) t).1.length =
            (runAux tfinal delta n (t + delta)).1.length + 1 := by
          simp [runAux, hlt]
        rw [this, hlen]
        omega
    · have hx0 : (tfinal - t) / delta ≤ 0 := by
        apply div_nonpos_iff.mpr
        right
        constructor
        · linarith [not_lt.mp hlt]
        · linarith
      have hle : ⌈(tfinal - t) / delta⌉ ≤ 0 := by
        apply Int.ceil_le.mpr
        exact_mod_cast hx0
      constructor
      · simp [runAux, hlt]
      · simp [runAux, hlt]
        omega

/-- Claim C1 counterexample: with `t_final = 17` and `min_delay = 5` the
driver's loop variable `t` terminates at `20`, not at `17` as claimed. -/
theorem run_t_final_is_twenty_not_seventeen :
    (model_run 17 5 10).2.1 = 20 ∧ ¬ ((model_run 17 5 10).2.1 = 17) := by
  norm_num [model_run, runAux, rmin]

/-- Claim C1 (amended): with `t_final = 17` and `min_delay = 5`, the epoch
length `delta = min(min_delay, t_final) = 5` is computed once before the
loop (not recomputed per iteration); the loop performs 4 iterations whose
cell-group advance end times are `5, 10, 15, 17` (the advance target
`min (t+delta, t_final)` never overshoots `t_final`, so the groups'
simulated time ends at exactly `17`), and the loop variable `t` terminates
at `20`. -/
theorem run_epochs_17_5 :
    model_run 17 5 10 = ([5, 10, 15, 17], 20, true) ∧
    rmin 5 17 = 5 := by
  norm_num [model_run, runAux, rmin]

/-- Claim C2: for every `t_final > 0` and `min_delay > 0`, the stepping loop
has a positive epoch length `delta = min(min_delay, t_final)`, exits through
its guard (terminates) given fuel at least `⌈t_final / min_delay⌉`, and
performs exactly `⌈t_final / min_delay⌉` iterations. -/
theorem run_iteration_count (tfinal mdelay : ℚ) (h1 : 0 < tfinal) (h2 : 0 < mdelay)
    (fuel : ℕ) (hf : (⌈tfinal / mdelay⌉).toNat ≤ fuel) :
    0 < rmin mdelay tfinal ∧
    (model_run tfinal mdelay fuel).2.2 = true ∧
    (model_run tfinal mdelay fuel).1.length = (⌈tfinal / mdelay⌉).toNat := by
  have hdpos : 0 < rmin mdelay tfinal := by
    rw [rmin_eq_min]
    exact lt_min h2 h1
  have hkey : ⌈tfinal / rmin mdelay tfinal⌉ = ⌈tfinal / mdelay⌉ := by
    rw [rmin_eq_min]
    rcases le_total mdelay tfinal with hc | hc
    · rw [min_eq_left hc]
    · rw [min_eq_right hc, div_self (ne_of_gt h1)]
      have hub : tfinal / mdelay ≤ 1 := (div_le_one h2).mpr hc
      have hlb : 0 < tfinal / mdelay := div_pos h1 h2
      have c1 : 0 < ⌈tfinal / mdelay⌉ := Int.ceil_pos.mpr hlb
      have c2 : ⌈tfinal / mdelay⌉ ≤ 1 := by
        apply Int.ceil_le.mpr
        exact_mod_cast hub
      have c3 : ⌈(1 : ℚ)⌉ = 1 := Int.ceil_one
      omega
  obtain ⟨ha, hb⟩ := runAux_complete tfinal (rmin mdelay tfinal) hdpos fuel 0
    (by rw [sub_zero, hkey]; exact hf)
  refine ⟨hdpos, ha, ?_⟩
  rw [sub_zero, hkey] at hb
  exact hb

/-- Witness for `run_iteration_count` at `t_final = 17`, `min_delay = 5`,
`fuel = 4`. -/
theorem run_iteration_count_witness :
    0 < rmin 5 17 ∧
    (model_run 17 5 4).2.2 = true ∧
    (model_run 17 5 4).1.length = (⌈(17 : ℚ) / 5⌉).toNat := by
  have h4 : (⌈(17 : ℚ) / 5⌉) = 4 := by
    have hle : ⌈(17 : ℚ) / 5⌉ ≤ 4 := Int.ceil_le.mpr (by norm_num)
    have hgt : (3 : ℤ) < ⌈(17 : ℚ) / 5⌉ := Int.lt_ceil.mpr (by norm_num)
    omega
  exact run_iteration_count 17 5 (by norm_num) (by norm_num) 4 (by rw [h4]; norm_num)

theorem filter_bind_list {α β : Type} (p : β → Bool) (f : α → List β) :
    ∀ l : List α, (l.flatMap f).filter p = l.flatMap fun i => (f i).filter p := by
  intro l
  induction l with
  | nil => rfl
  | cons a l ih => simp [List.flatMap_cons, List.filter_append, ih]

theorem bind_eq_nil_of_forall {α β : Type} (l : List α) (f : α → List β)
    (h : ∀ a, f a = []) : l.flatMap f = [] := by
  induction l with
  | nil => rfl
  | cons a l ih => simp [List.flatMap_cons, h, ih]

theorem groupOps_filter_isFor (i g : ℕ) :
    (groupOps i).filter (Op.isFor g) = if i = g then groupOps g else [] := by
  by_cases h : i = g
  · subst h
    simp [groupOps, Op.isFor]
  · simp [groupOps, Op.isFor, h]

theorem range_bind_filtered (g : ℕ) :
    ∀ n, ((List.range n).flatMap fun i => (groupOps i).filter (Op.isFor g)) =
      if g < n then groupOps g else [] := by
  intro n
  induction n with
  | zero => simp
  | succ n ih =>
    rw [List.range_succ, List.flatMap_append, ih]
    by_cases h : g < n
    · have h' : g < n + 1 := by omega
      have hne : n ≠ g := by omega
      simp [h, h', groupOps_filter_isFor, hne]
    · by_cases he : g = n
      · subst he
        simp [h, groupOps_filter_isFor]
      · have h' : ¬ g < n + 1 := by omega
        have hne : n ≠ g := by omega
        simp [h, h', groupOps_filter_isFor, hne]

/-- Claim C4: within an epoch, the operations applied to each local group
`g` are exactly `enqueue_events`, `advance`, `add_spikes`, `clear_spikes`,
in that order; `exchange` occurs exactly once in the epoch trace and it is
the last operation (hence after every group's sequence has completed). -/
theorem epoch_group_sequence (n g : ℕ) (hg : g < n) :
    (epochTrace n).filter (Op.isFor g) =
      [Op.enqueue_events g, Op.advance g, Op.add_spikes g, Op.clear_spikes g] ∧
    (epochTrace n).filter Op.isExchange = [Op.exchange] ∧
    (epochTrace n).getLast? = some Op.exchange := by
  refine ⟨?_, ?_, ?_⟩
  · rw [epochTrace, List.filter_append, filter_bind_list, range_bind_filtered]
    simp [hg, Op.isFor, groupOps]
  · rw [epochTrace, List.filter_append, filter_bind_list,
      bind_eq_nil_of_forall _ _ (fun i => by simp [groupOps, Op.isExchange])]
    simp [Op.isExchange]
  · rw [epochTrace]
    simp

/-- Witness for `epoch_group_sequence` with two local groups, `g = 0`. -/
theorem epoch_group_sequence_witness :
    (epochTrace 2).filter (Op.isFor 0) =
      [Op.enqueue_events 0, Op.advance 0, Op.add_spikes 0, Op.clear_spikes 0] ∧
    (epochTrace 2).filter Op.isExchange = [Op.exchange] ∧
    (epochTrace 2).getLast? = some Op.exchange :=
  epoch_group_sequence 2 0 (by decide)

theorem make_index_from_length (cs : List ℕ) :
    ∀ b, (make_index_from b cs).length = cs.length + 1 := by
  induction cs with
  | nil => intro b; rfl
  | cons c cs ih => intro b; simp [make_index_from, ih]

theorem make_index_from_head (b : ℕ) (cs : List ℕ) :
    (make_index_from b cs).getD 0 0 = b := by
  cases cs <;> rfl

theorem make_index_from_step (cs : List ℕ) :
    ∀ b k, k < cs.length →
      (make_index_from b cs).getD (k + 1) 0 =
        (make_index_from b cs).getD k 0 + cs.getD k 0 := by
  induction cs with
  | nil => intro b k h; simp at h
  | cons c cs ih =>
    intro b k h
    cases k with
    | zero =>
      simp only [make_index_from, List.getD_cons_succ, List.getD_cons_zero]
      exact make_index_from_head (b + c) cs
    | succ k =>
      simp only [make_index_from, List.getD_cons_succ]
      exact ih (b + c) k (by simpa using h)

theorem make_index_from_last (cs : List ℕ) :
    ∀ b, (make_index_from b cs).getD cs.length 0 = b + cs.sum := by
  induction cs with
  | nil => intro b; simp [make_index_from]
  | cons c cs ih =>
    intro b
    simp only [make_index_from, List.length_cons, List.getD_cons_succ, ih (b + c),
      List.sum_cons]
    omega

/-- Claim C3: for every non-negative count sequence, `make_index` returns
an offset sequence of length `n+1` with `offsets[0] = 0`,
`offsets[k+1] = offsets[k] + counts[k]` for all `k < n`, and
`offsets[n] = sum counts`; the operation is total (defined for every
sequence of natural-number counts). -/
theorem make_index_offsets (counts : List ℕ) :
    (make_index counts).length = counts.length + 1 ∧
    (make_index counts).getD 0 0 = 0 ∧
    (∀ k, k < counts.length →
      (make_index counts).getD (k + 1) 0 =
        (make_index counts).getD k 0 + counts.getD k 0) ∧
    (make_index counts).getD counts.length 0 = counts.sum := by
  refine ⟨make_index_from_length counts 0, make_index_from_head 0 counts, ?_, ?_⟩
  · intro k hk
    exact make_index_from_step counts 0 k hk
  · simpa using make_index_from_last counts 0

/-- Witness for `make_index_offsets` at `counts = [2, 3, 5]`, `k = 1`. -/
theorem make_index_offsets_witness :
    (make_index [2, 3, 5]).length = 4 ∧
    (make_index [2, 3, 5]).getD 0 0 = 0 ∧
    (make_index [2, 3, 5]).getD 2 0 = (make_index [2, 3, 5]).getD 1 0 + 3 ∧
    (make_index [2, 3, 5]).getD 3 0 = 10 := by
  obtain ⟨h1, h2, h3, h4⟩ := make_index_offsets [2, 3, 5]
  refine ⟨h1, h2, ?_, ?_⟩
  · simpa using h3 1 (by decide)
  · simpa using h4

theorem omin_assoc (a b c : Option ℚ) : omin (omin a b) c = omin a (omin b c) := by
  cases a <;> cases b <;> cases c <;> simp [omin, min_assoc]

theorem local_min_delay_append (xs ys : List ℚ) :
    local_min_delay (xs ++ ys) = omin (local_min_delay xs) (local_min_delay ys) := by
  induction xs with
  | nil => simp [local_min_delay, omin]
  | cons x xs ih =>
    simp only [List.cons_append, local_min_delay, List.foldr_cons] at *
    rw [ih, ← omin_assoc]

theorem local_min_delay_cons (x : ℚ) (l : List ℚ) :
    local_min_delay (x :: l) = omin (some x) (local_min_delay l) := rfl

theorem local_min_delay_eq_none (l : List ℚ) :
    local_min_delay l = none ↔ l = [] := by
  cases l with
  | nil => simp [local_min_delay]
  | cons x l =>
    rw [local_min_delay_cons]
    cases hl : local_min_delay l <;> simp [omin]

theorem local_min_delay_mem_le (l : List ℚ) :
    ∀ m, local_min_delay l = some m → m ∈ l ∧ ∀ d ∈ l, m ≤ d := by
  induction l with
  | nil => intro m h; simp [local_min_delay] at h
  | cons x l ih =>
    intro m h
    rw [local_min_delay_cons] at h
    cases hl : local_min_delay l with
    | none =>
      rw [hl] at h
      simp only [omin] at h
      have hnil : l = [] := (local_min_delay_eq_none l).mp hl
      subst hnil
      simp only [Option.some_inj] at h
      subst h
      simp
    | some m2 =>
      rw [hl] at h
      simp only [omin, Option.some_inj] at h
      obtain ⟨hmem, hle⟩ := ih m2 hl
      subst h
      refine ⟨?_, ?_⟩
      · rcases le_total x m2 with hc | hc
        · rw [min_eq_left hc]
          exact List.mem_cons_self x l
        · rw [min_eq_right hc]
          exact List.mem_cons_of_mem x hmem
      · intro d hd
        rcases List.mem_cons.mp hd with hd1 | hd2
        · subst hd1
          exact min_le_left _ _
        · exact le_trans (min_le_right x m2) (hle d hd2)

/-- Claim C5: after `construct()`, `min_delay()` is the minimum over the
connections of all domains: the collective reduction over per-domain local
minima equals the minimum of the flattened delay multiset, which is a
member of it and a lower bound for every domain's every delay — including
when some domains have no connections. -/
theorem min_delay_is_global_min (domains : List (List ℚ)) :
    global_min_delay domains = local_min_delay domains.flatten ∧
    ∀ m, global_min_delay domains = some m →
      m ∈ domains.flatten ∧ ∀ d ∈ domains.flatten, m ≤ d := by
  have hflat : global_min_delay domains = local_min_delay domains.flatten := by
    induction domains with
    | nil => simp [global_min_delay, local_min_delay]
    | cons d ds ih =>
      have hstep : global_min_delay (d :: ds) =
          omin (local_min_delay d) (global_min_delay ds) := rfl
      rw [hstep, ih, List.flatten_cons, local_min_delay_append]
  refine ⟨hflat, ?_⟩
  intro m hm
  rw [hflat] at hm
  exact local_min_delay_mem_le domains.flatten m hm

/-- Witness for `min_delay_is_global_min`: domain 0 has delays `{5, 3}`,
domain 1 has `{7}`; the network-wide minimum is `3`. -/
theorem min_delay_is_global_min_witness :
    global_min_delay [[5, 3], [7]] = some 3 ∧
    (3 : ℚ) ∈ ([[(5 : ℚ), 3], [7]]).flatten ∧
    ∀ d ∈ ([[(5 : ℚ), 3], [7]]).flatten, (3 : ℚ) ≤ d := by
  have hval : global_min_delay [[5, 3], [7]] = some 3 := by
    norm_num [global_min_delay, local_min_delay, omin, min_def]
  obtain ⟨hmem, hle⟩ := (min_delay_is_global_min [[5, 3], [7]]).2 3 hval
  exact ⟨hval, hmem, hle⟩

/-- Claim C6: for every local index `lid`, the addressing round trip
`group_lid (group_gid_from_group_lid lid) = lid` holds. -/
theorem group_lid_round_trip (dm : DomainAddressing) (lid : ℕ) :
    group_lid dm (group_gid_from_group_lid dm lid) = lid := by
  simp [group_lid, group_gid_from_group_lid]

/-- Claim C7: after `construct()` has succeeded, `add_connection` fails
with a usage error; it does not silently add the connection. -/
theorem add_connection_after_construct_fails (c c2 : Communicator) (con : Connection)
    (h : construct c = Except.ok c2) :
    add_connection c2 con = Except.error CommError.usage_error := by
  unfold construct at h
  by_cases hc : c.constructed = true
  · rw [if_pos hc] at h
    exact absurd h (by simp)
  · rw [if_neg hc] at h
    by_cases hv : c.connections.all (fun con => decide ((0 : ℚ) ≤ con.delay)) = true
    · rw [if_pos hv] at h
      simp only [Except.ok.injEq] at h
      have hc2 : c2.constructed = true := by
        rw [← h]
      unfold add_connection
      rw [if_pos hc2]
    · rw [if_neg hv] at h
      exact absurd h (by simp)

/-- Witness for `add_connection_after_construct_fails`: an empty
communicator is constructed, then an `add_connection` attempt fails. -/
theorem add_connection_after_construct_fails_witness :
    add_connection { connections := [], constructed := true }
      { source := 0, target := 0, weight := 0, delay := 1 } =
      Except.error CommError.usage_error :=
  add_connection_after_construct_fails
    { connections := [], constructed := false }
    { connections := [], constructed := true }
    { source := 0, target := 0, weight := 0, delay := 1 }
    rfl

/-- Claim C8: given a cable segment, `add_cable` errors exactly when
`parent > num_segments()`; in particular `parent = num_segments()` is
accepted, and the accepted call records the given parent value as the last
entry of the parent table. -/
theorem add_cable_parent_bound (c : cable_cell) (p : ℕ) :
    (c.num_segments < p →
      c.add_cable p SegmentKind.cable = Except.error cable_cell_error.parent_out_of_range) ∧
    (p ≤ c.num_segments →
      c.add_cable p SegmentKind.cable =
        Except.ok { segments_ := c.segments_ ++ [SegmentKind.cable],
                    parents_ := c.parents_ ++ [p] } ∧
      (c.parents_ ++ [p]).getLast? = some p) := by
  constructor
  · intro h
    unfold cable_cell.add_cable
    rw [if_neg (by simp), if_pos h]
  · intro h
    constructor
    · unfold cable_cell.add_cable
      rw [if_neg (by simp), if_neg (by omega)]
    · simp

/-- Witness for `add_cable_parent_bound`: on a fresh cell
(`num_segments = 1`), `add_cable` with `parent = 1 = num_segments` is
accepted and records parent `1`. -/
theorem add_cable_parent_bound_witness :
    cable_cell.init.add_cable 1 SegmentKind.cable =
      Except.ok { segments_ := [SegmentKind.placeholder, SegmentKind.cable],
                  parents_ := [0, 1] } ∧
    ([0, 1] : List ℕ).getLast? = some 1 :=
  (add_cable_parent_bound cable_cell.init 1).2 (by decide)

/-- Claim C9: the per-domain local cell counts sum to the global cell count
over all `D > 0` domains, and any two domains' counts differ by at most
one. -/
theorem partition_counts (g D : ℕ) (hD : 0 < D) :
    (Finset.range D).sum (fun i => ncell_local g D i) = g ∧
    ∀ i j, ncell_local g D i ≤ ncell_local g D j + 1 := by
  have hdm : D * (g / D) + g % D = g := Nat.div_add_mod g D
  have hcomm : g / D * D = D * (g / D) := Nat.mul_comm _ _
  have hmod : g - g / D * D = g % D := by omega
  have hform : ∀ i, ncell_local g D i = if i < g % D then g / D + 1 else g / D := by
    intro i
    unfold ncell_local
    rw [hmod]
  have hr : g % D < D := Nat.mod_lt g hD
  constructor
  · have hsplit : ∀ i, (if i < g % D then g / D + 1 else g / D) =
        g / D + (if i < g % D then 1 else 0) := by
      intro i
      split <;> omega
    have h1 : (Finset.range D).sum (fun i => ncell_local g D i) =
        (Finset.range D).sum (fun i => g / D + (if i < g % D then 1 else 0)) := by
      apply Finset.sum_congr rfl
      intro i _
      rw [hform i, hsplit i]
    rw [h1, Finset.sum_add_distrib, Finset.sum_const, Finset.card_range, smul_eq_mul]
    have h2 : (Finset.range D).sum (fun i => if i < g % D then 1 else 0) = g % D := by
      rw [Finset.sum_boole]
      have hfil : (Finset.range D).filter (fun i => i < g % D) = Finset.range (g % D) := by
        ext x
        simp only [Finset.mem_filter, Finset.mem_range]
        omega
      rw [hfil, Finset.card_range]
      simp
    rw [h2]
    omega
  · intro i j
    rw [hform i, hform j]
    split_ifs <;> omega

/-- Witness for `partition_counts` at `ncell_global = 10`,
`num_domains = 4` (counts `3, 3, 2, 2`). -/
theorem partition_counts_witness :
    (Finset.range 4).sum (fun i => ncell_local 10 4 i) = 10 ∧
    ncell_local 10 4 0 ≤ ncell_local 10 4 3 + 1 :=
  ⟨(partition_counts 10 4 (by decide)).1, (partition_counts 10 4 (by decide)).2 0 3⟩

theorem buildConns_length (gid spc : ℕ) (w : ℚ) (src : ℕ → ℕ) (dly : ℕ → ℚ) :
    ∀ fuel i tgt added,
      (buildConns gid spc w src dly fuel i tgt added).length =
        min (spc - added) (countValid gid src i fuel) := by
  intro fuel
  induction fuel with
  | zero =>
    intro i tgt added
    simp [buildConns, countValid]
  | succ n ih =>
    intro i tgt added
    by_cases ha : added < spc
    · by_cases hs : gid ≠ src i
      · simp only [buildConns, countValid, if_pos ha, if_pos hs, List.length_cons, ih]
        omega
      · simp only [buildConns, countValid, if_pos ha, if_neg hs, ih]
        omega
    · simp only [buildConns, countValid, if_neg ha, List.length_nil]
      omega

theorem buildConns_mem (gid spc : ℕ) (w : ℚ) (src : ℕ → ℕ) (dly : ℕ → ℚ)
    (hdly : ∀ j, 0 ≤ dly j) :
    ∀ fuel i tgt added con,
      con ∈ buildConns gid spc w src dly fuel i tgt added →
      con.source ≠ gid ∧ (20 : ℚ) ≤ con.delay := by
  intro fuel
  induction fuel with
  | zero =>
    intro i tgt added con h
    simp [buildConns] at h
  | succ n ih =>
    intro i tgt added con h
    by_cases ha : added < spc
    · by_cases hs : gid ≠ src i
      · simp only [buildConns, if_pos ha, if_pos hs] at h
        rcases List.mem_cons.mp h with h1 | h2
        · subst h1
          refine ⟨Ne.symm hs, ?_⟩
          have hj := hdly i
          simp only [synapses_delay]
          linarith
        · exact ih _ _ _ _ h2
      · simp only [buildConns, if_pos ha, if_neg hs] at h
        exact ih _ _ _ _ h
    · simp only [buildConns, if_neg ha] at h
      simp at h

/-- Claim C10: when the loop runs to completion (the draw stream offers at
least `synapses_per_cell` candidates different from `gid` within the
fuel), it adds exactly `synapses_per_cell` connections, every added
connection's source differs from the receiving cell's gid (no
self-connections), and every delay is at least the base synapse delay
`20.0`. -/
theorem connection_loop_props (gid spc tgt0 : ℕ) (w : ℚ) (src : ℕ → ℕ) (dly : ℕ → ℚ)
    (fuel : ℕ) (hdly : ∀ j, 0 ≤ dly j) (hfuel : spc ≤ countValid gid src 0 fuel) :
    (buildConns gid spc w src dly fuel 0 tgt0 0).length = spc ∧
    ∀ con ∈ buildConns gid spc w src dly fuel 0 tgt0 0,
      con.source ≠ gid ∧ (20 : ℚ) ≤ con.delay := by
  constructor
  · rw [buildConns_length]
    omega
  · intro con hcon
    exact buildConns_mem gid spc w src dly hdly fuel 0 tgt0 0 con hcon

/-- Witness for `connection_loop_props`: cell `gid = 0` requesting one
synapse, a draw stream that always offers source `1`, zero exponential
draws. -/
theorem connection_loop_props_witness :
    (buildConns 0 1 0 (fun _ => 1) (fun _ => 0) 1 0 5 0).length = 1 ∧
    ∀ con ∈ buildConns 0 1 0 (fun _ => 1) (fun _ => 0) 1 0 5 0,
      con.source ≠ 0 ∧ (20 : ℚ) ≤ con.delay :=
  connection_loop_props 0 1 5 0 (fun _ => 1) (fun _ => 0) 1
    (fun _ => le_refl 0) (by simp [countValid])
